import Mathlib

/-!
Shallow embedding of `my_solution.py` (routing-cycle detector).

The program ingests pipe-delimited "hop" lines, groups them into directed
graphs by a composite key (claim_id, status_code), and on each edge insertion
runs an explicit-stack depth-first search (`search_cycle_paths`) to decide
whether the new edge closes a simple cycle beating the graph's recorded best.

Data model:
  * `GraphID`     — the namedtuple GraphID(claim_id, status_code)
  * `SystemEdge`  — the namedtuple SystemEdge(source_system, destination_system)
  * `Adj`         — the adjacency dict `dict[str, set[str]]`, modelled as an
                    insertion-ordered association list of (node, destination list)
  * `GraphState`  — one entry of the `graphs` dict: {'edges': ..., 'longest_cycle': ...}
  * `AggState`    — the driver state of `main`: graphs, global_longest_cycle,
                    global_longest_graph_id
-/

abbrev Node := String

/-- namedtuple GraphID(claim_id, status_code) from my_solution.py. -/
structure GraphID where
  claim_id : String
  status_code : String
deriving DecidableEq, Repr

/-- namedtuple SystemEdge(source_system, destination_system) from my_solution.py. -/
structure SystemEdge where
  source_system : String
  destination_system : String
deriving DecidableEq, Repr

/-- The adjacency mapping `dict[str, set[str]]`: association list in insertion
order; each value list holds distinct destinations in insertion order. -/
abbrev Adj := List (Node × List Node)

/-- Python `edges.get(system, ())`: destinations of `system`, or the empty collection. -/
def adjGet (edges : Adj) (n : Node) : List Node :=
  match edges with
  | [] => []
  | (n', l) :: rest => if n' = n then l else adjGet rest n

/-- The edge-insertion step of `main`:
`if src not in edges: edges[src] = set()` followed by `edges[src].add(dst)`.
Set semantics: adding a present destination is a no-op. -/
def adjInsert (edges : Adj) (src dst : Node) : Adj :=
  match edges with
  | [] => [(src, [dst])]
  | (n, l) :: rest =>
    if n = src then (n, if dst ∈ l then l else l ++ [dst]) :: rest
    else (n, l) :: adjInsert rest src dst

/-! ## Parsing (`get_hop_data`)

Python: `source, destination, claim_id, status_code = line.strip().split('|')`.
`str.strip` and `str.split('|')` are modelled character-by-character, exactly
as Python defines them: `strip` removes leading and trailing whitespace from
the whole line; `split('|')` splits at every `'|'` and keeps empty fields. -/

/-- Python `str.split('|')` on a character list: split at every pipe,
keeping empty fields (so the result is always nonempty). -/
def splitPipe : List Char → List (List Char)
  | [] => [[]]
  | c :: cs =>
    if c = '|' then [] :: splitPipe cs
    else
      match splitPipe cs with
      | [] => [[c]]
      | f :: rest => (c :: f) :: rest

/-- Python `str.strip()`: drop leading and trailing whitespace of the line. -/
def pyStrip (s : List Char) : List Char :=
  (((s.dropWhile Char.isWhitespace).reverse).dropWhile Char.isWhitespace).reverse

/-- Parser `get_hop_data(line)`: unpacks `line.strip().split('|')` into exactly four
fields `source, destination, claim_id, status_code`; any other field count
raises ValueError, modelled as `none`. The fields themselves are used
verbatim (only the whole line was stripped). -/
def get_hop_data (line : String) : Option (GraphID × SystemEdge) :=
  match splitPipe (pyStrip line.data) with
  | [source, destination, claim_id, status_code] =>
    some (⟨String.mk claim_id, String.mk status_code⟩,
          ⟨String.mk source, String.mk destination⟩)
  | _ => none

/-! ## The cycle search engine (`search_cycle_paths`)

The Python loop keeps an explicit stack of frames `(system, depth, visited)`;
`stack.pop()` takes the most recently appended frame, so the stack is modelled
head-first: pushing the neighbour list in iteration order and then popping the
last one equals prepending the reversed mapped list. -/

/-- One stack frame `(system, depth, visited)` of `search_cycle_paths`. -/
abbrev Frame := Node × Nat × List Node

/-- All node names occurring in the adjacency mapping (keys and destinations),
without duplicates.  Only used for the termination measure. -/
def nodesOf (edges : Adj) : List Node :=
  (edges.map Prod.fst ++ (edges.map Prod.snd).flatten).dedup

/-- One more than the total number of destination entries; a strict upper bound
on every neighbour-list length.  Only used for the termination measure. -/
def bigB (edges : Adj) : Nat :=
  ((edges.map Prod.snd).flatten).length + 1

/-- Termination weight of one frame: `bigB ^ (number of graph nodes not yet
visited on this branch)`. -/
def frameW (edges : Adj) (f : Frame) : Nat :=
  bigB edges ^ ((nodesOf edges).filter (fun x => decide (x ∉ f.2.2))).length

/-- Termination measure of the whole stack. -/
def stackW (edges : Adj) (st : List Frame) : Nat :=
  (st.map (frameW edges)).sum

theorem bigB_pos (edges : Adj) : 0 < bigB edges := Nat.succ_pos _

theorem frameW_pos (edges : Adj) (f : Frame) : 0 < frameW edges f :=
  Nat.pos_pow_of_pos _ (bigB_pos edges)

theorem stackW_cons (edges : Adj) (f : Frame) (st : List Frame) :
    stackW edges (f :: st) = frameW edges f + stackW edges st := rfl

theorem stackW_lt_cons (edges : Adj) (f : Frame) (st : List Frame) :
    stackW edges st < stackW edges (f :: st) := by
  have := frameW_pos edges f
  simp only [stackW_cons]
  omega

theorem adjGet_cases (edges : Adj) (s : Node) :
    adjGet edges s = [] ∨
      (s ∈ edges.map Prod.fst ∧ adjGet edges s ∈ edges.map Prod.snd) := by
  induction edges with
  | nil => exact Or.inl rfl
  | cons e rest ih =>
    obtain ⟨n, l⟩ := e
    by_cases h : n = s
    · right
      subst h
      simp [adjGet]
    · simp only [adjGet, if_neg h]
      rcases ih with h1 | ⟨h2, h3⟩
      · exact Or.inl h1
      · exact Or.inr ⟨by simp [h2], by simp [h3]⟩

theorem adjGet_len_lt (edges : Adj) (s : Node) :
    (adjGet edges s).length < bigB edges := by
  rcases adjGet_cases edges s with h | ⟨_, h⟩
  · simp [h, bigB_pos]
  · have : (adjGet edges s).length ≤ ((edges.map Prod.snd).flatten).length := by
      rw [List.length_flatten]
      exact List.single_le_sum (by intro x _; exact Nat.zero_le x) _
        (List.mem_map_of_mem List.length h)
    have hb : bigB edges = ((edges.map Prod.snd).flatten).length + 1 := rfl
    omega

theorem adjGet_mem_nodesOf (edges : Adj) (s : Node)
    (h : adjGet edges s ≠ []) : s ∈ nodesOf edges := by
  rcases adjGet_cases edges s with h1 | ⟨h2, _⟩
  · exact absurd h1 h
  · unfold nodesOf
    rw [List.mem_dedup]
    exact List.mem_append_left _ h2

/-- Key decrease lemma for the expansion step: replacing the popped frame by
its children (all carrying the strictly larger visited set) strictly shrinks
the measure. -/
theorem stackW_expand (edges : Adj) (s : Node) (d : Nat)
    (v : List Node) (st : List Frame) (hs : s ∉ v) :
    stackW edges (((adjGet edges s).map fun nx => (nx, d + 1, s :: v)).reverse ++ st)
      < stackW edges ((s, d, v) :: st) := by
  rcases em (adjGet edges s = []) with hnil | hne
  · simp only [hnil, List.map_nil, List.reverse_nil, List.nil_append]
    exact stackW_lt_cons edges _ st
  · have hsU : s ∈ nodesOf edges := adjGet_mem_nodesOf edges s hne
    -- the children's branch has one fewer unvisited node than the parent's
    have hsub :
        ((nodesOf edges).filter (fun x => decide (x ∉ s :: v))).length <
          ((nodesOf edges).filter (fun x => decide (x ∉ v))).length := by
      have hsl :
          ((nodesOf edges).filter (fun x => decide (x ∉ s :: v))).Sublist
            ((nodesOf edges).filter (fun x => decide (x ∉ v))) := by
        apply List.monotone_filter_right
        intro a ha
        simp only [decide_eq_true_eq, List.mem_cons, not_or] at ha ⊢
        exact ha.2
      rcases Nat.lt_or_ge
          ((nodesOf edges).filter (fun x => decide (x ∉ s :: v))).length
          ((nodesOf edges).filter (fun x => decide (x ∉ v))).length with hlt | hge
      · exact hlt
      · exfalso
        have hlen := hsl.length_le
        have heq : ((nodesOf edges).filter (fun x => decide (x ∉ s :: v))) =
            ((nodesOf edges).filter (fun x => decide (x ∉ v))) :=
          hsl.eq_of_length (Nat.le_antisymm hlen hge)
        have hmem : s ∈ (nodesOf edges).filter (fun x => decide (x ∉ v)) := by
          rw [List.mem_filter]
          exact ⟨hsU, by simpa using hs⟩
        rw [← heq, List.mem_filter] at hmem
        simp at hmem
    -- sum over the children
    have hchild :
        stackW edges (((adjGet edges s).map fun nx => (nx, d + 1, s :: v)).reverse)
          = (adjGet edges s).length *
              bigB edges ^ ((nodesOf edges).filter (fun x => decide (x ∉ s :: v))).length := by
      unfold stackW
      rw [List.map_reverse, List.sum_reverse, List.map_map]
      have : ((fun f => frameW edges f) ∘ fun nx => ((nx, d + 1, s :: v) : Frame))
          = fun _ => bigB edges ^ ((nodesOf edges).filter (fun x => decide (x ∉ s :: v))).length := by
        funext nx
        rfl
      rw [this, List.map_const', List.sum_replicate, smul_eq_mul]
    unfold stackW
    rw [List.map_append, List.sum_append]
    have hrw : ((((adjGet edges s).map fun nx => (nx, d + 1, s :: v)).reverse).map
        (frameW edges)).sum = (adjGet edges s).length *
          bigB edges ^ ((nodesOf edges).filter (fun x => decide (x ∉ s :: v))).length := hchild
    rw [hrw]
    have hparent : frameW edges (s, d, v)
        = bigB edges ^ ((nodesOf edges).filter (fun x => decide (x ∉ v))).length := rfl
    simp only [List.map_cons, List.sum_cons, hparent]
    have hklt := adjGet_len_lt edges s
    have hstep : (adjGet edges s).length *
        bigB edges ^ ((nodesOf edges).filter (fun x => decide (x ∉ s :: v))).length <
        bigB edges ^ ((nodesOf edges).filter (fun x => decide (x ∉ v))).length := by
      calc (adjGet edges s).length *
            bigB edges ^ ((nodesOf edges).filter (fun x => decide (x ∉ s :: v))).length
          < bigB edges *
            bigB edges ^ ((nodesOf edges).filter (fun x => decide (x ∉ s :: v))).length :=
            (Nat.mul_lt_mul_right (Nat.pos_pow_of_pos _ (bigB_pos edges))).mpr hklt
        _ = bigB edges ^ (((nodesOf edges).filter (fun x => decide (x ∉ s :: v))).length + 1) := by
            rw [Nat.pow_succ, Nat.mul_comm]
        _ ≤ bigB edges ^ ((nodesOf edges).filter (fun x => decide (x ∉ v))).length := by
            apply Nat.pow_le_pow_right (bigB_pos edges)
            omega
    omega

/-- The while-loop of `search_cycle_paths`, as a total function on the explicit
stack.  Each clause is the literal loop body: pop `(system, depth, visited)`;
prune when `depth + 1 <= current_best`; return `depth` when
`system == target`; drop revisits; otherwise push one frame per outgoing
neighbour with `depth + 1` and `visited | {system}` (the last-pushed neighbour
is popped first). -/
def searchGo (edges : Adj) (target : Node) (current_best : Nat) :
    List Frame → Option Nat
  | [] => none
  | frame :: stack =>
    if frame.2.1 + 1 ≤ current_best then searchGo edges target current_best stack
    else if frame.1 = target then some frame.2.1
    else if frame.1 ∈ frame.2.2 then searchGo edges target current_best stack
    else searchGo edges target current_best
      (((adjGet edges frame.1).map
          fun nx => (nx, frame.2.1 + 1, frame.1 :: frame.2.2)).reverse ++ stack)
termination_by st => stackW edges st
decreasing_by
  · exact stackW_lt_cons edges _ _
  · exact stackW_lt_cons edges _ _
  · exact stackW_expand edges frame.1 frame.2.1 frame.2.2 stack (by assumption)

/-- Engine entry `search_cycle_paths(start, target, edges, current_best)`: runs the loop
from the single initial frame `(start, 0, set())`. -/
def search_cycle_paths (start target : Node) (edges : Adj)
    (current_best : Nat) : Option Nat :=
  searchGo edges target current_best [(start, 0, [])]

/-- Fuel-indexed copy of the loop, used to reason about the number of
iterations the while-loop performs: `none` means the fuel ran out before the
loop finished, `some r` means the loop finished with result `r`. -/
def searchFuel (edges : Adj) (target : Node) (current_best : Nat) :
    Nat → List Frame → Option (Option Nat)
  | 0, _ => none
  | _ + 1, [] => some none
  | n + 1, frame :: stack =>
    if frame.2.1 + 1 ≤ current_best then searchFuel edges target current_best n stack
    else if frame.1 = target then some (some frame.2.1)
    else if frame.1 ∈ frame.2.2 then searchFuel edges target current_best n stack
    else searchFuel edges target current_best n
      (((adjGet edges frame.1).map
          fun nx => (nx, frame.2.1 + 1, frame.1 :: frame.2.2)).reverse ++ stack)

/-! ## Walks and simple paths over the adjacency mapping -/

/-- Forward walk `chainEnd edges a ns b`: `ns` lists, in order, the successive nodes of a
walk that starts at `a` and ends at `b` (`ns = []` means `a = b`; otherwise
the last element of `ns` is `b`), every step following an edge of `edges`. -/
def chainEnd (edges : Adj) : Node → List Node → Node → Bool
  | a, [], b => a == b
  | a, x :: xs, b => (adjGet edges a).contains x && chainEnd edges x xs b

/-- Reversed walk `walkBack edges s v start`: `v` lists, in reverse order, the nodes strictly
before `s` of a walk from `start` to `s` (so `v = []` means `s = start`).
This is exactly the shape of the `visited` component of a search frame. -/
def walkBack (edges : Adj) : Node → List Node → Node → Bool
  | s, [], start => s == start
  | s, y :: ys, start => (adjGet edges y).contains s && walkBack edges y ys start

/-- A simple path (no repeated node) of exactly `p` edges from `start` to
`target` inside `edges`. -/
def SimplePath (edges : Adj) (start target : Node) (p : Nat) : Prop :=
  ∃ ns : List Node, chainEnd edges start ns target = true ∧
    ns.length = p ∧ (start :: ns).Nodup

theorem chainEnd_snoc (edges : Adj) (ns : List Node) (a b c : Node)
    (h : chainEnd edges a ns b = true) (hc : c ∈ adjGet edges b) :
    chainEnd edges a (ns ++ [c]) c = true := by
  induction ns generalizing a with
  | nil =>
    simp only [chainEnd, beq_iff_eq] at h
    subst h
    simp [chainEnd, hc]
  | cons x xs ih =>
    simp only [chainEnd, Bool.and_eq_true] at h
    simp only [List.cons_append, chainEnd, Bool.and_eq_true]
    exact ⟨h.1, ih x h.2⟩

/-- A reversed walk yields a forward walk over the same multiset of nodes. -/
theorem walkBack_to_chainEnd (edges : Adj) (v : List Node) (s start : Node)
    (h : walkBack edges s v start = true) :
    ∃ ns : List Node, chainEnd edges start ns s = true ∧
      ns.length = v.length ∧ List.Perm (start :: ns) (s :: v) := by
  induction v generalizing s with
  | nil =>
    simp only [walkBack, beq_iff_eq] at h
    subst h
    exact ⟨[], by simp [chainEnd], rfl, List.Perm.refl _⟩
  | cons y ys ih =>
    simp only [walkBack, Bool.and_eq_true] at h
    obtain ⟨ns', h1, h2, h3⟩ := ih y h.2
    refine ⟨ns' ++ [s], chainEnd_snoc edges ns' start y s h1 (by simpa using h.1),
      by simp [h2], ?_⟩
    have p1 : List.Perm (start :: (ns' ++ [s])) (s :: (start :: ns')) := by
      have := List.perm_append_singleton s (start :: ns')
      simpa using this
    exact p1.trans (List.Perm.cons s h3)

/-! ## Fuel lemmas: the fuel-indexed loop agrees with `searchGo`, always
finishes given enough fuel, and satisfies the search invariants. -/

theorem searchFuel_sound (edges : Adj) (target : Node) (cb : Nat) :
    ∀ n st r, searchFuel edges target cb n st = some r →
      searchGo edges target cb st = r := by
  intro n
  induction n with
  | zero => intro st r h; simp [searchFuel] at h
  | succ n ih =>
    intro st r h
    cases st with
    | nil =>
      simp only [searchFuel, Option.some.injEq] at h
      simp [searchGo, ← h]
    | cons frame stack =>
      obtain ⟨s, d, v⟩ := frame
      by_cases h1 : d + 1 ≤ cb
      · simp only [searchFuel, if_pos h1] at h
        rw [searchGo, if_pos h1]
        exact ih _ _ h
      · by_cases h2 : s = target
        · simp only [searchFuel, if_neg h1, if_pos h2, Option.some.injEq] at h
          rw [searchGo, if_neg h1, if_pos h2]
          exact h
        · by_cases h3 : s ∈ v
          · simp only [searchFuel, if_neg h1, if_neg h2, if_pos h3] at h
            rw [searchGo, if_neg h1, if_neg h2, if_pos h3]
            exact ih _ _ h
          · simp only [searchFuel, if_neg h1, if_neg h2, if_neg h3] at h
            rw [searchGo, if_neg h1, if_neg h2, if_neg h3]
            exact ih _ _ h

theorem searchFuel_total (edges : Adj) (target : Node) (cb : Nat) :
    ∀ n st, stackW edges st < n → ∃ r, searchFuel edges target cb n st = some r := by
  intro n
  induction n with
  | zero => intro st h; omega
  | succ n ih =>
    intro st hlt
    cases st with
    | nil => exact ⟨none, rfl⟩
    | cons frame stack =>
      obtain ⟨s, d, v⟩ := frame
      by_cases h1 : d + 1 ≤ cb
      · have hs := stackW_lt_cons edges (s, d, v) stack
        obtain ⟨r, hr⟩ := ih stack (by omega)
        exact ⟨r, by simp only [searchFuel, if_pos h1]; exact hr⟩
      · by_cases h2 : s = target
        · exact ⟨some d, by simp only [searchFuel, if_neg h1, if_pos h2]⟩
        · by_cases h3 : s ∈ v
          · have hs := stackW_lt_cons edges (s, d, v) stack
            obtain ⟨r, hr⟩ := ih stack (by omega)
            exact ⟨r, by simp only [searchFuel, if_neg h1, if_neg h2, if_pos h3]; exact hr⟩
          · have hs := stackW_expand edges s d v stack h3
            obtain ⟨r, hr⟩ := ih
              (((adjGet edges s).map fun nx => (nx, d + 1, s :: v)).reverse ++ stack)
              (by omega)
            exact ⟨r, by simp only [searchFuel, if_neg h1, if_neg h2, if_neg h3]; exact hr⟩

/-- The loop, started on the initial frame, always finishes: some fuel value
makes the fuel-indexed loop return, and its result is `search_cycle_paths`. -/
theorem search_terminates (start target : Node) (edges : Adj) (cb : Nat) :
    ∃ n r, searchFuel edges target cb n [(start, 0, [])] = some r ∧
      search_cycle_paths start target edges cb = r := by
  obtain ⟨r, hr⟩ := searchFuel_total edges target cb
    (stackW edges [(start, 0, [])] + 1) [(start, 0, [])] (by omega)
  exact ⟨_, r, hr, searchFuel_sound edges target cb _ _ _ hr⟩

/-! ## Search invariants -/

/-- Invariant of one live stack frame `(s, d, v)` during a search launched at
`start` with target `target`: `v` is the reversed list of the nodes already
walked from `start` to `s`, it has no duplicates, it never contains `target`,
and its length is the recorded depth `d`. -/
def FrameInv (edges : Adj) (start target : Node) (f : Frame) : Prop :=
  walkBack edges f.1 f.2.2 start = true ∧ f.2.2.Nodup ∧
    target ∉ f.2.2 ∧ f.2.2.length = f.2.1

/-- Soundness at the fuel level: a successful result `p` comes with a reversed
simple walk of length `p` from `start` to `target`. -/
theorem searchFuel_sound_inv (edges : Adj) (start target : Node) (cb : Nat) :
    ∀ n st p, (∀ f ∈ st, FrameInv edges start target f) →
      searchFuel edges target cb n st = some (some p) →
      ∃ v : List Node, walkBack edges target v start = true ∧ v.Nodup ∧
        target ∉ v ∧ v.length = p := by
  intro n
  induction n with
  | zero => intro st p _ h; simp [searchFuel] at h
  | succ n ih =>
    intro st p hinv h
    cases st with
    | nil => simp [searchFuel] at h
    | cons frame stack =>
      obtain ⟨s, d, v⟩ := frame
      by_cases h1 : d + 1 ≤ cb
      · simp only [searchFuel, if_pos h1] at h
        exact ih stack p (fun f hf => hinv f (List.mem_cons_of_mem _ hf)) h
      · by_cases h2 : s = target
        · simp only [searchFuel, if_neg h1, if_pos h2, Option.some.injEq] at h
          obtain ⟨hw, hnd, hnt, hlen⟩ := hinv (s, d, v) (List.mem_cons_self _ _)
          subst h2
          have hd : d = p := by simpa using h
          have hl : v.length = d := hlen
          exact ⟨v, hw, hnd, hnt, by omega⟩
        · by_cases h3 : s ∈ v
          · simp only [searchFuel, if_neg h1, if_neg h2, if_pos h3] at h
            exact ih stack p (fun f hf => hinv f (List.mem_cons_of_mem _ hf)) h
          · simp only [searchFuel, if_neg h1, if_neg h2, if_neg h3] at h
            refine ih _ p ?_ h
            intro f hf
            rcases List.mem_append.mp hf with hfc | hfs
            · rw [List.mem_reverse, List.mem_map] at hfc
              obtain ⟨nx, hnx, rfl⟩ := hfc
              obtain ⟨hw, hnd, hnt, hlen⟩ := hinv (s, d, v) (List.mem_cons_self _ _)
              refine ⟨?_, ?_, ?_, ?_⟩
              · simp only [walkBack, Bool.and_eq_true]
                exact ⟨by simpa using hnx, hw⟩
              · exact List.nodup_cons.mpr ⟨h3, hnd⟩
              · simp only [List.mem_cons, not_or]
                exact ⟨fun hts => h2 hts.symm, hnt⟩
              · simpa using hlen
            · exact hinv f (List.mem_cons_of_mem _ hfs)

/-- A frame can still reach the target: some simple forward walk from the
frame's node to `target` avoids everything in the frame's visited set. -/
def CanReach (edges : Adj) (target : Node) (f : Frame) : Prop :=
  ∃ ns : List Node, chainEnd edges f.1 ns target = true ∧
    (f.1 :: ns).Nodup ∧ ∀ x ∈ f.1 :: ns, x ∉ f.2.2

/-- Completeness at the fuel level for `current_best = 0` (no pruning): if some
stack frame can still reach the target, the loop does not finish empty-handed. -/
theorem searchFuel_complete_inv (edges : Adj) (target : Node) :
    ∀ n st r, searchFuel edges target 0 n st = some r →
      (∃ f ∈ st, CanReach edges target f) → r ≠ none := by
  intro n
  induction n with
  | zero => intro st r h; simp [searchFuel] at h
  | succ n ih =>
    intro st r h hex
    cases st with
    | nil => simp at hex
    | cons frame stack =>
      obtain ⟨s, d, v⟩ := frame
      have h1 : ¬ (d + 1 ≤ 0) := by omega
      by_cases h2 : s = target
      · simp only [searchFuel, if_neg h1, if_pos h2, Option.some.injEq] at h
        rw [← h]
        simp
      · by_cases h3 : s ∈ v
        · simp only [searchFuel, if_neg h1, if_neg h2, if_pos h3] at h
          refine ih stack r h ?_
          obtain ⟨f, hf, hcr⟩ := hex
          rcases List.mem_cons.mp hf with rfl | hfs
          · obtain ⟨ns, _, _, havoid⟩ := hcr
            exact absurd h3 (havoid s (List.mem_cons_self _ _))
          · exact ⟨f, hfs, hcr⟩
        · simp only [searchFuel, if_neg h1, if_neg h2, if_neg h3] at h
          refine ih _ r h ?_
          obtain ⟨f, hf, hcr⟩ := hex
          rcases List.mem_cons.mp hf with rfl | hfs
          · obtain ⟨ns, hchain, hnd, havoid⟩ := hcr
            cases ns with
            | nil =>
              exfalso
              simp only [chainEnd, beq_iff_eq] at hchain
              exact h2 hchain
            | cons x ns2 =>
              simp only [chainEnd, Bool.and_eq_true] at hchain
              refine ⟨(x, d + 1, s :: v), ?_, ?_⟩
              · apply List.mem_append_left
                rw [List.mem_reverse, List.mem_map]
                exact ⟨x, by simpa using hchain.1, rfl⟩
              · refine ⟨ns2, hchain.2, (List.nodup_cons.mp hnd).2, ?_⟩
                intro y hy
                simp only [List.mem_cons, not_or]
                constructor
                · intro hys
                  subst hys
                  exact (List.nodup_cons.mp hnd).1 hy
                · exact havoid y (List.mem_cons_of_mem _ hy)
          · exact ⟨f, List.mem_append_right _ hfs, hcr⟩

/-- Pruning bound at the fuel level: a returned depth `p` always satisfies
`current_best < p + 1`. -/
theorem searchFuel_bound (edges : Adj) (target : Node) (cb : Nat) :
    ∀ n st p, searchFuel edges target cb n st = some (some p) → cb < p + 1 := by
  intro n
  induction n with
  | zero => intro st p h; simp [searchFuel] at h
  | succ n ih =>
    intro st p h
    cases st with
    | nil => simp [searchFuel] at h
    | cons frame stack =>
      obtain ⟨s, d, v⟩ := frame
      by_cases h1 : d + 1 ≤ cb
      · simp only [searchFuel, if_pos h1] at h
        exact ih stack p h
      · by_cases h2 : s = target
        · simp only [searchFuel, if_neg h1, if_pos h2, Option.some.injEq] at h
          have : d = p := by simpa using h
          omega
        · by_cases h3 : s ∈ v
          · simp only [searchFuel, if_neg h1, if_neg h2, if_pos h3] at h
            exact ih stack p h
          · simp only [searchFuel, if_neg h1, if_neg h2, if_neg h3] at h
            exact ih _ p h

/-! ## Behaviour of `search_cycle_paths` -/

/-- Any result of a finished fuel run equals `search_cycle_paths`. -/
theorem searchFuel_eval (start target : Node) (edges : Adj) (cb n : Nat)
    (r : Option Nat) (h : searchFuel edges target cb n [(start, 0, [])] = some r) :
    search_cycle_paths start target edges cb = r :=
  searchFuel_sound edges target cb n _ r h

/-- Soundness: a returned `p` is witnessed by a simple path of exactly `p`
edges from `start` to `target` inside the adjacency mapping. -/
theorem search_cycle_paths_sound (start target : Node) (edges : Adj)
    (cb p : Nat) (h : search_cycle_paths start target edges cb = some p) :
    SimplePath edges start target p := by
  obtain ⟨n, r, hn, hr⟩ := search_terminates start target edges cb
  rw [hr] at h
  subst h
  have hinv : ∀ f ∈ [((start : Node), (0 : Nat), ([] : List Node))],
      FrameInv edges start target f := by
    intro f hf
    rcases List.mem_cons.mp hf with rfl | hfalse
    · exact ⟨by simp [walkBack], List.nodup_nil, by simp, rfl⟩
    · simp at hfalse
  obtain ⟨v, hw, hnd, hnt, hlen⟩ := searchFuel_sound_inv edges start target cb n _ p hinv hn
  obtain ⟨ns, hchain, hlen2, hperm⟩ := walkBack_to_chainEnd edges v target start hw
  refine ⟨ns, hchain, by omega, ?_⟩
  exact hperm.symm.nodup (List.nodup_cons.mpr ⟨hnt, hnd⟩)

/-- Completeness with no pruning: if any simple path from `start` to `target`
exists, the search with `current_best = 0` returns a result. -/
theorem search_cycle_paths_complete_zero (start target : Node) (edges : Adj)
    (p : Nat) (h : SimplePath edges start target p) :
    ∃ q, search_cycle_paths start target edges 0 = some q := by
  obtain ⟨n, r, hn, hr⟩ := search_terminates start target edges 0
  have hne : r ≠ none := by
    refine searchFuel_complete_inv edges target n _ r hn ?_
    obtain ⟨ns, hchain, hlen, hnd⟩ := h
    exact ⟨(start, 0, []), List.mem_cons_self _ _, ns, hchain, hnd, by simp⟩
  cases r with
  | none => exact absurd rfl hne
  | some q => exact ⟨q, by rw [hr]⟩

/-- With any positive `current_best`, the very first pop is pruned
(`0 + 1 <= current_best`), the stack empties, and the search returns `none`. -/
theorem search_cycle_paths_cbpos (start target : Node) (edges : Adj)
    (cb : Nat) (h : 1 ≤ cb) : search_cycle_paths start target edges cb = none := by
  apply searchFuel_eval start target edges cb 2
  simp only [searchFuel, if_pos (by omega : (0 : Nat) + 1 ≤ cb)]

/-- Pruning bound: the engine never returns `p` with `p + 1 ≤ current_best`. -/
theorem search_cycle_paths_bound (start target : Node) (edges : Adj)
    (cb p : Nat) (h : search_cycle_paths start target edges cb = some p) :
    cb < p + 1 := by
  obtain ⟨n, r, hn, hr⟩ := search_terminates start target edges cb
  rw [hr] at h
  subst h
  exact searchFuel_bound edges target cb n _ p hn

/-- A self-loop query (`start == target`) with `current_best = 0` returns
depth 0 on the very first pop, for every adjacency mapping. -/
theorem search_cycle_paths_self (n : Node) (edges : Adj) :
    search_cycle_paths n n edges 0 = some 0 := by
  apply searchFuel_eval n n edges 0 1
  simp [searchFuel]

/-! ## The aggregator (`main`)

`main` keeps `graphs : dict[GraphID, {'edges': ..., 'longest_cycle': ...}]`,
`global_longest_cycle : int` and `global_longest_graph_id : GraphID | None`,
and folds the body of its `for graph_id, edge in stream_data_from_file(...)`
loop over the parsed hops. -/

/-- One value of the `graphs` dict: `{'edges': ..., 'longest_cycle': ...}`. -/
structure GraphState where
  edges : Adj
  longest_cycle : Nat
deriving DecidableEq, Repr

/-- The mutable state of `main`. -/
structure AggState where
  graphs : List (GraphID × GraphState)
  global_longest_cycle : Nat
  global_longest_graph_id : Option GraphID
deriving DecidableEq, Repr

/-- Dict lookup `graphs[graph_id]` (with `None` for a missing key). -/
def lookupGraph (k : GraphID) : List (GraphID × GraphState) → Option GraphState
  | [] => none
  | (k', g) :: rest => if k' = k then some g else lookupGraph k rest

/-- Dict update `graphs[graph_id] = g` for a key already present: replaces the
entry in place (Python dicts keep one entry per key). -/
def setGraph (k : GraphID) (g : GraphState) :
    List (GraphID × GraphState) → List (GraphID × GraphState)
  | [] => []
  | (k', g') :: rest => if k' = k then (k', g) :: rest else (k', g') :: setGraph k g rest

/-- Initial state of `main`: `graphs = {}`, `global_longest_cycle = 0`,
`global_longest_graph_id = None`. -/
def initState : AggState := ⟨[], 0, none⟩

/-- The body of `main`'s loop for one hop `(graph_id, edge)`:

* unseen key: create `{'edges': {source: {destination}}, 'longest_cycle': 0}`
  and `continue` (no search);
* seen key: run `search_cycle_paths(edge.destination_system,
  edge.source_system, edges, longest_cycle)`; on a hit `p`, set
  `cycle_length = p + 1`, update the graph's `longest_cycle` (first with
  `max`, then overwritten when `cycle_length > longest_cycle`) and, when
  `cycle_length > global_longest_cycle`, the global best and its key;
  finally insert the new edge into the adjacency. -/
def processHop (st : AggState) (hop : GraphID × SystemEdge) : AggState :=
  match lookupGraph hop.1 st.graphs with
  | none =>
    { st with graphs := st.graphs ++
        [(hop.1, ⟨[(hop.2.source_system, [hop.2.destination_system])], 0⟩)] }
  | some graph =>
    let edges := graph.edges
    let longest_cycle := graph.longest_cycle
    match search_cycle_paths hop.2.destination_system hop.2.source_system
        edges longest_cycle with
    | none =>
      let newEdges := adjInsert edges hop.2.source_system hop.2.destination_system
      { st with graphs := setGraph hop.1 (GraphState.mk newEdges longest_cycle) st.graphs }
    | some cycle_path_length =>
      let cycle_length := cycle_path_length + 1
      let l1 := max longest_cycle cycle_length
      let l2 := if longest_cycle < cycle_length then cycle_length else l1
      let newEdges := adjInsert edges hop.2.source_system hop.2.destination_system
      { graphs := setGraph hop.1 (GraphState.mk newEdges l2) st.graphs,
        global_longest_cycle :=
          if st.global_longest_cycle < cycle_length then cycle_length
          else st.global_longest_cycle,
        global_longest_graph_id :=
          if st.global_longest_cycle < cycle_length then some hop.1
          else st.global_longest_graph_id }

/-- Driving the loop over an already-parsed hop list, from the initial state. -/
def runHops (hops : List (GraphID × SystemEdge)) : AggState :=
  hops.foldl processHop initState

/-- Composition of `stream_data_from_file` and the loop of `main`: skip blank lines (Python's
`if line.strip():`), parse each remaining line with `get_hop_data` (a
malformed line raises, aborting the run: modelled by `Except.error` carrying
the offending line), and fold `processHop` over the parsed hops. -/
def processLines : AggState → List String → Except String AggState
  | st, [] => .ok st
  | st, line :: rest =>
    if pyStrip line.data = [] then processLines st rest
    else
      match get_hop_data line with
      | none => .error line
      | some hop => processLines (processHop st hop) rest

/-- The single output line of `main`: the global best key and length on
success, the "could not find" message otherwise. -/
def formatResult (st : AggState) (source_file : String) : String :=
  match st.global_longest_graph_id with
  | some gid => gid.claim_id ++ "," ++ gid.status_code ++ "," ++
      toString st.global_longest_cycle
  | none => "Could not find a longest cycle from data in " ++ source_file ++ "."

/-- The whole run of `main` over the lines of the source file: either the one
printed result line, or the line at which parsing aborted the run. -/
def runMain (lines : List String) (source_file : String) : Except String String :=
  (processLines initState lines).map (fun st => formatResult st source_file)

/-- Recorded `longest_cycle` for key `k` (0 when the key is absent). -/
def longestOf (k : GraphID) (st : AggState) : Nat :=
  ((lookupGraph k st.graphs).map GraphState.longest_cycle).getD 0

/-- Adjacency recorded for key `k`. -/
def edgesOf (k : GraphID) (st : AggState) : Option Adj :=
  (lookupGraph k st.graphs).map GraphState.edges

/-- Maximum of `longest_cycle` over all graphs in the store (0 when empty). -/
def maxLongest (graphs : List (GraphID × GraphState)) : Nat :=
  (graphs.map (fun e => e.2.longest_cycle)).foldr max 0

/-! ## Store lemmas -/

theorem lookupGraph_append_some (k : GraphID) (l l' : List (GraphID × GraphState))
    (g : GraphState) (h : lookupGraph k l = some g) :
    lookupGraph k (l ++ l') = some g := by
  induction l with
  | nil => simp [lookupGraph] at h
  | cons e rest ih =>
    obtain ⟨k', g'⟩ := e
    by_cases hk : k' = k
    · simp only [lookupGraph, if_pos hk] at h ⊢
      exact h
    · simp only [lookupGraph, if_neg hk] at h ⊢
      exact ih h

theorem lookupGraph_append_none (k : GraphID) (l l' : List (GraphID × GraphState))
    (h : lookupGraph k l = none) :
    lookupGraph k (l ++ l') = lookupGraph k l' := by
  induction l with
  | nil => simp
  | cons e rest ih =>
    obtain ⟨k', g'⟩ := e
    by_cases hk : k' = k
    · simp only [lookupGraph, if_pos hk] at h
      exact absurd h (by simp)
    · simp only [lookupGraph, if_neg hk] at h ⊢
      exact ih h

theorem lookupGraph_setGraph_self (k : GraphID) (g' : GraphState)
    (l : List (GraphID × GraphState)) (g : GraphState)
    (h : lookupGraph k l = some g) :
    lookupGraph k (setGraph k g' l) = some g' := by
  induction l with
  | nil => simp [lookupGraph] at h
  | cons e rest ih =>
    obtain ⟨k'', g''⟩ := e
    by_cases hk : k'' = k
    · simp [setGraph, lookupGraph, if_pos hk]
    · simp only [lookupGraph, if_neg hk] at h
      simp only [setGraph, if_neg hk, lookupGraph]
      exact ih h

theorem lookupGraph_setGraph_ne (k k' : GraphID) (g' : GraphState)
    (l : List (GraphID × GraphState)) (hk : k' ≠ k) :
    lookupGraph k' (setGraph k g' l) = lookupGraph k' l := by
  induction l with
  | nil => simp [setGraph]
  | cons e rest ih =>
    obtain ⟨k'', g''⟩ := e
    by_cases h1 : k'' = k
    · subst h1
      have h2 : ¬ (k'' = k') := fun hc => hk hc.symm
      simp [setGraph, lookupGraph, h2]
    · simp only [setGraph, if_neg h1, lookupGraph]
      by_cases h2 : k'' = k'
      · rw [if_pos h2, if_pos h2]
      · rw [if_neg h2, if_neg h2]
        exact ih

theorem lookupGraph_mem (k : GraphID) (l : List (GraphID × GraphState))
    (g : GraphState) (h : lookupGraph k l = some g) : (k, g) ∈ l := by
  induction l with
  | nil => simp [lookupGraph] at h
  | cons e rest ih =>
    obtain ⟨k', g'⟩ := e
    by_cases hk : k' = k
    · subst hk
      simp only [lookupGraph, if_pos rfl] at h
      have hg : g' = g := by injection h
      subst hg
      exact List.mem_cons_self _ _
    · simp only [lookupGraph, if_neg hk] at h
      exact List.mem_cons_of_mem _ (ih h)

theorem mem_setGraph (k : GraphID) (g : GraphState)
    (l : List (GraphID × GraphState)) (e : GraphID × GraphState)
    (h : e ∈ setGraph k g l) : e.2 = g ∨ e ∈ l := by
  induction l with
  | nil => simp [setGraph] at h
  | cons e' rest ih =>
    obtain ⟨k', g'⟩ := e'
    by_cases hk : k' = k
    · simp only [setGraph, if_pos hk] at h
      rcases List.mem_cons.mp h with rfl | h2
      · exact Or.inl rfl
      · exact Or.inr (List.mem_cons_of_mem _ h2)
    · simp only [setGraph, if_neg hk] at h
      rcases List.mem_cons.mp h with rfl | h2
      · exact Or.inr (List.mem_cons_self _ _)
      · rcases ih h2 with h3 | h3
        · exact Or.inl h3
        · exact Or.inr (List.mem_cons_of_mem _ h3)

/-! ## Adjacency insertion lemmas -/

theorem adjInsert_mem (edges : Adj) (src dst : Node) :
    dst ∈ adjGet (adjInsert edges src dst) src := by
  induction edges with
  | nil => simp [adjInsert, adjGet]
  | cons e rest ih =>
    obtain ⟨n, l⟩ := e
    by_cases h : n = src
    · simp only [adjInsert, if_pos h, adjGet, if_pos h]
      by_cases h2 : dst ∈ l
      · simp [h2]
      · simp [h2]
    · simp only [adjInsert, if_neg h, adjGet, if_neg h]
      exact ih

theorem adjInsert_idem (edges : Adj) (src dst : Node)
    (h : dst ∈ adjGet edges src) : adjInsert edges src dst = edges := by
  induction edges with
  | nil => simp [adjGet] at h
  | cons e rest ih =>
    obtain ⟨n, l⟩ := e
    by_cases hk : n = src
    · simp only [adjGet, if_pos hk] at h
      simp [adjInsert, if_pos hk, h]
    · simp only [adjGet, if_neg hk] at h
      simp [adjInsert, if_neg hk, ih h]

/-! ## One-hop characterisations of `processHop` -/

theorem processHop_new (st : AggState) (hop : GraphID × SystemEdge)
    (hl : lookupGraph hop.1 st.graphs = none) :
    processHop st hop = { st with
                          graphs := st.graphs ++
                            [(hop.1, GraphState.mk
                              [(hop.2.source_system, [hop.2.destination_system])] 0)] } := by
  simp only [processHop, hl]

theorem processHop_found_none (st : AggState) (hop : GraphID × SystemEdge)
    (g : GraphState) (hl : lookupGraph hop.1 st.graphs = some g)
    (hs : search_cycle_paths hop.2.destination_system hop.2.source_system
      g.edges g.longest_cycle = none) :
    processHop st hop = { st with
                          graphs := setGraph hop.1
                            (GraphState.mk
                              (adjInsert g.edges hop.2.source_system hop.2.destination_system)
                              g.longest_cycle) st.graphs } := by
  simp only [processHop, hl, hs]

theorem processHop_found_some (st : AggState) (hop : GraphID × SystemEdge)
    (g : GraphState) (p : Nat) (hl : lookupGraph hop.1 st.graphs = some g)
    (hs : search_cycle_paths hop.2.destination_system hop.2.source_system
      g.edges g.longest_cycle = some p) :
    processHop st hop = { graphs := setGraph hop.1
                            (GraphState.mk
                              (adjInsert g.edges hop.2.source_system hop.2.destination_system)
                              (if g.longest_cycle < p + 1 then p + 1
                               else max g.longest_cycle (p + 1))) st.graphs,
                          global_longest_cycle :=
                            if st.global_longest_cycle < p + 1 then p + 1
                            else st.global_longest_cycle,
                          global_longest_graph_id :=
                            if st.global_longest_cycle < p + 1 then some hop.1
                            else st.global_longest_graph_id } := by
  simp only [processHop, hl, hs]

/-! ## Per-key effects of one hop -/

theorem processHop_other_key (st : AggState) (hop : GraphID × SystemEdge)
    (k : GraphID) (hk : k ≠ hop.1) :
    lookupGraph k (processHop st hop).graphs = lookupGraph k st.graphs := by
  cases hl : lookupGraph hop.1 st.graphs with
  | none =>
    rw [processHop_new st hop hl]
    cases hlk : lookupGraph k st.graphs with
    | none =>
      have hk' : ¬ hop.1 = k := fun hc => hk hc.symm
      simp only []
      rw [lookupGraph_append_none k _ _ hlk]
      simp [lookupGraph, hk', hlk]
    | some g => simpa using lookupGraph_append_some k _ _ g hlk
  | some g =>
    cases hs : search_cycle_paths hop.2.destination_system hop.2.source_system
        g.edges g.longest_cycle with
    | none =>
      rw [processHop_found_none st hop g hl hs]
      exact lookupGraph_setGraph_ne hop.1 k _ st.graphs hk
    | some p =>
      rw [processHop_found_some st hop g p hl hs]
      exact lookupGraph_setGraph_ne hop.1 k _ st.graphs hk

theorem processHop_self_edges (st : AggState) (hop : GraphID × SystemEdge) :
    ∃ g : GraphState, lookupGraph hop.1 (processHop st hop).graphs = some g ∧
      hop.2.destination_system ∈ adjGet g.edges hop.2.source_system := by
  cases hl : lookupGraph hop.1 st.graphs with
  | none =>
    rw [processHop_new st hop hl]
    refine ⟨GraphState.mk [(hop.2.source_system, [hop.2.destination_system])] 0, ?_, ?_⟩
    · simp only []
      rw [lookupGraph_append_none hop.1 _ _ hl]
      simp [lookupGraph]
    · simp [adjGet]
  | some g =>
    cases hs : search_cycle_paths hop.2.destination_system hop.2.source_system
        g.edges g.longest_cycle with
    | none =>
      rw [processHop_found_none st hop g hl hs]
      exact ⟨_, lookupGraph_setGraph_self hop.1 _ st.graphs g hl, adjInsert_mem _ _ _⟩
    | some p =>
      rw [processHop_found_some st hop g p hl hs]
      exact ⟨_, lookupGraph_setGraph_self hop.1 _ st.graphs g hl, adjInsert_mem _ _ _⟩

theorem processHop_stable_edges (st : AggState) (hop : GraphID × SystemEdge)
    (g : GraphState) (hl : lookupGraph hop.1 st.graphs = some g)
    (hmem : hop.2.destination_system ∈ adjGet g.edges hop.2.source_system) :
    ∃ g' : GraphState, lookupGraph hop.1 (processHop st hop).graphs = some g' ∧
      g'.edges = g.edges := by
  cases hs : search_cycle_paths hop.2.destination_system hop.2.source_system
      g.edges g.longest_cycle with
  | none =>
    rw [processHop_found_none st hop g hl hs]
    exact ⟨_, lookupGraph_setGraph_self hop.1 _ st.graphs g hl,
      adjInsert_idem g.edges _ _ hmem⟩
  | some p =>
    rw [processHop_found_some st hop g p hl hs]
    exact ⟨_, lookupGraph_setGraph_self hop.1 _ st.graphs g hl,
      adjInsert_idem g.edges _ _ hmem⟩

/-- Re-processing the same hop leaves every graph's adjacency untouched. -/
theorem processHop_twice_edges (st : AggState) (hop : GraphID × SystemEdge)
    (k : GraphID) :
    edgesOf k (processHop (processHop st hop) hop) = edgesOf k (processHop st hop) := by
  by_cases hk : k = hop.1
  · subst hk
    obtain ⟨g, hg, hmem⟩ := processHop_self_edges st hop
    obtain ⟨g', hg', he⟩ := processHop_stable_edges (processHop st hop) hop g hg hmem
    unfold edgesOf
    rw [hg, hg']
    simp [he]
  · unfold edgesOf
    rw [processHop_other_key (processHop st hop) hop k hk]

/-! ## Monotonicity of `longest_cycle` -/

theorem processHop_longest_mono (st : AggState) (hop : GraphID × SystemEdge)
    (k : GraphID) : longestOf k st ≤ longestOf k (processHop st hop) := by
  by_cases hk : k = hop.1
  · subst hk
    cases hl : lookupGraph hop.1 st.graphs with
    | none =>
      unfold longestOf
      rw [hl]
      simp
    | some g =>
      cases hs : search_cycle_paths hop.2.destination_system hop.2.source_system
          g.edges g.longest_cycle with
      | none =>
        rw [processHop_found_none st hop g hl hs]
        unfold longestOf
        simp only []
        rw [lookupGraph_setGraph_self hop.1 _ st.graphs g hl, hl]
        simp
      | some p =>
        rw [processHop_found_some st hop g p hl hs]
        unfold longestOf
        simp only []
        rw [lookupGraph_setGraph_self hop.1 _ st.graphs g hl, hl]
        simp only [Option.map_some', Option.getD_some]
        split
        · omega
        · exact Nat.le_max_left _ _
  · unfold longestOf
    rw [processHop_other_key st hop k hk]

/-- Over any hop sequence, each graph's recorded best never decreases. -/
theorem foldl_longest_mono (hops : List (GraphID × SystemEdge)) :
    ∀ (st : AggState) (k : GraphID),
      longestOf k st ≤ longestOf k (hops.foldl processHop st) := by
  induction hops with
  | nil => intro st k; simp
  | cons hop rest ih =>
    intro st k
    calc longestOf k st ≤ longestOf k (processHop st hop) :=
          processHop_longest_mono st hop k
      _ ≤ _ := ih (processHop st hop) k

/-! ## The global-best invariant of `main` -/

/-- Invariant tying `global_longest_cycle` and `global_longest_graph_id` to
the per-graph `longest_cycle` values: the global count bounds every graph's
count, the key is `None` exactly while the count is 0, and a recorded key
always points at a graph whose count equals the global count. -/
def GlobalInv (st : AggState) : Prop :=
  (∀ e ∈ st.graphs, e.2.longest_cycle ≤ st.global_longest_cycle) ∧
  (st.global_longest_graph_id = none ↔ st.global_longest_cycle = 0) ∧
  (∀ k, st.global_longest_graph_id = some k →
    ∃ g, lookupGraph k st.graphs = some g ∧
      g.longest_cycle = st.global_longest_cycle)

theorem globalInv_init : GlobalInv initState := by
  refine ⟨?_, ?_, ?_⟩
  · intro e he
    simp [initState] at he
  · simp [initState]
  · intro k hk
    simp [initState] at hk

theorem globalInv_step (st : AggState) (hop : GraphID × SystemEdge)
    (h : GlobalInv st) : GlobalInv (processHop st hop) := by
  obtain ⟨hb, hiff, hwit⟩ := h
  cases hl : lookupGraph hop.1 st.graphs with
  | none =>
    rw [processHop_new st hop hl]
    refine ⟨?_, hiff, ?_⟩
    · intro e he
      simp only [] at he ⊢
      rcases List.mem_append.mp he with h1 | h1
      · exact hb e h1
      · simp only [List.mem_cons, List.not_mem_nil, or_false] at h1
        rw [h1]
        exact Nat.zero_le _
    · intro k hk
      obtain ⟨g, hg, he⟩ := hwit k hk
      exact ⟨g, lookupGraph_append_some k _ _ g hg, he⟩
  | some g =>
    have hgm : (hop.1, g) ∈ st.graphs := lookupGraph_mem _ _ _ hl
    have hgle : g.longest_cycle ≤ st.global_longest_cycle := hb _ hgm
    cases hs : search_cycle_paths hop.2.destination_system hop.2.source_system
        g.edges g.longest_cycle with
    | none =>
      rw [processHop_found_none st hop g hl hs]
      refine ⟨?_, hiff, ?_⟩
      · intro e he
        simp only [] at he ⊢
        rcases mem_setGraph _ _ _ _ he with h1 | h1
        · rw [h1]
          exact hgle
        · exact hb e h1
      · intro k hk
        obtain ⟨gk, hgk, hek⟩ := hwit k hk
        by_cases hkk : k = hop.1
        · subst hkk
          rw [hl] at hgk
          have hggk : g = gk := by injection hgk
          refine ⟨_, lookupGraph_setGraph_self _ _ _ g hl, ?_⟩
          rw [← hek, hggk]
        · refine ⟨gk, ?_, hek⟩
          rw [lookupGraph_setGraph_ne _ _ _ _ hkk]
          exact hgk
    | some p =>
      rw [processHop_found_some st hop g p hl hs]
      by_cases hg2 : st.global_longest_cycle < p + 1
      · refine ⟨?_, ?_, ?_⟩
        · intro e he
          simp only [if_pos hg2] at he ⊢
          rcases mem_setGraph _ _ _ _ he with h1 | h1
          · rw [h1]
            have hlt : g.longest_cycle < p + 1 := lt_of_le_of_lt hgle hg2
            show (if g.longest_cycle < p + 1 then p + 1
              else max g.longest_cycle (p + 1)) ≤ p + 1
            rw [if_pos hlt]
          · exact le_trans (hb e h1) (by omega)
        · simp only [if_pos hg2]
          simp
        · intro k hk
          simp only [if_pos hg2] at hk ⊢
          have hkk : hop.1 = k := by injection hk
          subst hkk
          refine ⟨_, lookupGraph_setGraph_self _ _ _ g hl, ?_⟩
          have hlt : g.longest_cycle < p + 1 := lt_of_le_of_lt hgle hg2
          show (if g.longest_cycle < p + 1 then p + 1
            else max g.longest_cycle (p + 1)) = p + 1
          rw [if_pos hlt]
      · refine ⟨?_, ?_, ?_⟩
        · intro e he
          simp only [if_neg hg2] at he ⊢
          rcases mem_setGraph _ _ _ _ he with h1 | h1
          · rw [h1]
            show (if g.longest_cycle < p + 1 then p + 1
              else max g.longest_cycle (p + 1)) ≤ st.global_longest_cycle
            split
            · omega
            · exact Nat.max_le.mpr ⟨hgle, by omega⟩
          · exact hb e h1
        · simp only [if_neg hg2]
          exact hiff
        · intro k hk
          simp only [if_neg hg2] at hk ⊢
          obtain ⟨gk, hgk, hek⟩ := hwit k hk
          by_cases hkk : k = hop.1
          · subst hkk
            rw [hl] at hgk
            have hggk : g = gk := by injection hgk
            refine ⟨_, lookupGraph_setGraph_self _ _ _ g hl, ?_⟩
            have hple : p + 1 ≤ g.longest_cycle := by
              rw [hggk, hek]
              omega
            show (if g.longest_cycle < p + 1 then p + 1
              else max g.longest_cycle (p + 1)) = st.global_longest_cycle
            rw [if_neg (by omega), Nat.max_eq_left hple, hggk, hek]
          · refine ⟨gk, ?_, hek⟩
            rw [lookupGraph_setGraph_ne _ _ _ _ hkk]
            exact hgk

theorem globalInv_fold (hops : List (GraphID × SystemEdge)) :
    ∀ st : AggState, GlobalInv st → GlobalInv (hops.foldl processHop st) := by
  induction hops with
  | nil => intro st h; exact h
  | cons hop rest ih =>
    intro st h
    exact ih (processHop st hop) (globalInv_step st hop h)

theorem globalInv_run (hops : List (GraphID × SystemEdge)) :
    GlobalInv (runHops hops) :=
  globalInv_fold hops initState globalInv_init

/-! ## `maxLongest` characterisation -/

theorem foldr_max_le (m : List Nat) (G : Nat) (h : ∀ x ∈ m, x ≤ G) :
    m.foldr max 0 ≤ G := by
  induction m with
  | nil => exact Nat.zero_le _
  | cons x xs ih =>
    simp only [List.foldr_cons]
    exact Nat.max_le.mpr ⟨h x (List.mem_cons_self _ _),
      ih (fun y hy => h y (List.mem_cons_of_mem _ hy))⟩

theorem le_foldr_max (m : List Nat) (x : Nat) (h : x ∈ m) :
    x ≤ m.foldr max 0 := by
  induction m with
  | nil => simp at h
  | cons y ys ih =>
    simp only [List.foldr_cons]
    rcases List.mem_cons.mp h with rfl | h2
    · exact Nat.le_max_left _ _
    · exact le_trans (ih h2) (Nat.le_max_right _ _)

/-- Under the invariant, the recorded global count is literally the maximum
of `longest_cycle` over all graphs in the store. -/
theorem globalInv_maxLongest (st : AggState) (h : GlobalInv st) :
    st.global_longest_cycle = maxLongest st.graphs := by
  obtain ⟨hb, hiff, hwit⟩ := h
  apply Nat.le_antisymm
  · cases hgid : st.global_longest_graph_id with
    | none =>
      rw [hiff.mp hgid]
      exact Nat.zero_le _
    | some k =>
      obtain ⟨g, hg, he⟩ := hwit k hgid
      rw [← he]
      exact le_foldr_max _ _ (List.mem_map_of_mem _ (lookupGraph_mem _ _ _ hg))
  · apply foldr_max_le
    intro x hx
    rw [List.mem_map] at hx
    obtain ⟨e, hem, rfl⟩ := hx
    exact hb e hem

/-! ## Parser and abort behaviour -/

theorem get_hop_data_none_iff (line : String) :
    get_hop_data line = none ↔ (splitPipe (pyStrip line.data)).length ≠ 4 := by
  unfold get_hop_data
  rcases hsp : splitPipe (pyStrip line.data) with _ | ⟨a, _ | ⟨b, _ | ⟨c, _ | ⟨d, _ | ⟨e, rest⟩⟩⟩⟩⟩
  · simp
  · simp
  · simp
  · simp
  · simp
  · simp only [List.length_cons]
    simp

/-- Fields of a well-formed line are used verbatim: whatever `split('|')`
yields after stripping the whole line becomes the record's fields, with no
per-field trimming. -/
theorem get_hop_data_verbatim (line : String) (a b c d : List Char)
    (h : splitPipe (pyStrip line.data) = [a, b, c, d]) :
    get_hop_data line =
      some (⟨String.mk c, String.mk d⟩, ⟨String.mk a, String.mk b⟩) := by
  unfold get_hop_data
  rw [h]

/-- A non-blank malformed line reached after well-formed (or blank) lines
aborts the whole run with no result. -/
theorem processLines_abort (bad : String) (hbad1 : pyStrip bad.data ≠ [])
    (hbad2 : get_hop_data bad = none) :
    ∀ pre : List String,
      (∀ l ∈ pre, pyStrip l.data = [] ∨ get_hop_data l ≠ none) →
      ∀ (post : List String) (st : AggState),
        processLines st (pre ++ bad :: post) = Except.error bad := by
  intro pre
  induction pre with
  | nil =>
    intro _ post st
    simp only [List.nil_append, processLines]
    rw [if_neg hbad1, hbad2]
  | cons l rest ih =>
    intro hpre post st
    simp only [List.cons_append, processLines]
    by_cases hb : pyStrip l.data = []
    · rw [if_pos hb]
      exact ih (fun x hx => hpre x (List.mem_cons_of_mem _ hx)) post st
    · rw [if_neg hb]
      rcases hpre l (List.mem_cons_self _ _) with h1 | h1
      · exact absurd h1 hb
      · cases hgl : get_hop_data l with
        | none => exact absurd hgl h1
        | some hop =>
          exact ih (fun x hx => hpre x (List.mem_cons_of_mem _ hx)) post (processHop st hop)

theorem runMain_abort (pre : List String) (bad : String) (post : List String)
    (source_file : String)
    (hpre : ∀ l ∈ pre, pyStrip l.data = [] ∨ get_hop_data l ≠ none)
    (hbad1 : pyStrip bad.data ≠ []) (hbad2 : get_hop_data bad = none) :
    runMain (pre ++ bad :: post) source_file = Except.error bad := by
  unfold runMain
  rw [processLines_abort bad hbad1 hbad2 pre hpre post initState]
  rfl

/-! ## Concrete evaluations used by witnesses and counterexamples -/

/-- A self-loop hop, processed twice in the counterexamples below. -/
def selfHop : GraphID × SystemEdge := (⟨"CLAIM01", "STATUS01"⟩, ⟨"A", "A"⟩)

theorem runHops_self_one :
    runHops [selfHop] =
      AggState.mk [(selfHop.1, GraphState.mk [("A", ["A"])] 0)] 0 none := by
  rfl

theorem runHops_self_two :
    runHops [selfHop, selfHop] =
      AggState.mk [(selfHop.1, GraphState.mk [("A", ["A"])] 1)] 1 (some selfHop.1) := by
  have hstep : runHops [selfHop, selfHop] = processHop (runHops [selfHop]) selfHop := rfl
  rw [hstep, runHops_self_one]
  rw [processHop_found_some _ selfHop (GraphState.mk [("A", ["A"])] 0) 0 (by decide)
    (search_cycle_paths_self "A" [("A", ["A"])])]
  decide

/-- Self-loop inserted into a pre-existing graph with empty adjacency and
`longest_cycle = 0`: the search returns 0 and the recorded best becomes 1. -/
theorem processHop_selfloop_empty (k : GraphID) (a : Node) :
    longestOf k (processHop (AggState.mk [(k, GraphState.mk [] 0)] 0 none)
      (k, SystemEdge.mk a a)) = 1 ∧
    (processHop (AggState.mk [(k, GraphState.mk [] 0)] 0 none)
      (k, SystemEdge.mk a a)).global_longest_cycle = 1 := by
  have hl : lookupGraph k [(k, GraphState.mk [] 0)] = some (GraphState.mk [] 0) := by
    simp [lookupGraph]
  rw [processHop_found_some _ _ _ 0 hl (search_cycle_paths_self a [])]
  constructor
  · unfold longestOf
    simp only []
    rw [lookupGraph_setGraph_self k _ _ _ hl]
    simp
  · simp

/-! ## Claims -/

/-- Claim C1, as stated, is false on the code: with
`edges = {A: {B}, B: {C}, C: {A}}`, `start = B`, `target = A`,
`currentBest = 2`, the adjacency contains the simple path B → C → A of
`p = 2` edges with `p + 1 = 3 > 2`, yet `search_cycle_paths` returns `none`,
because the pruning step `depth + 1 <= current_best` already discards the
initial frame `(B, 0, {})`. -/
theorem claim_C1_cex :
    SimplePath [("A", ["B"]), ("B", ["C"]), ("C", ["A"])] "B" "A" 2 ∧
    2 + 1 > 2 ∧
    search_cycle_paths "B" "A" [("A", ["B"]), ("B", ["C"]), ("C", ["A"])] 2 = none := by
  refine ⟨⟨["C", "A"], by decide, rfl, by decide⟩, by omega, ?_⟩
  exact searchFuel_eval "B" "A" [("A", ["B"]), ("B", ["C"]), ("C", ["A"])] 2 3 none (by decide)

/-- Claim C1 (amended): the advertised completeness holds exactly in the
unpruned case.  With `currentBest = 0`, whenever the adjacency contains a
simple path from `start` to `target`, `search_cycle_paths` returns some
integer; with `currentBest >= 1` the pruning step discards the initial
frame (depth 0), so the search returns absent regardless of which paths
exist. -/
theorem claim_C1 :
    (∀ (edges : Adj) (start target : Node) (p : Nat),
      SimplePath edges start target p →
      ∃ q, search_cycle_paths start target edges 0 = some q) ∧
    (∀ (edges : Adj) (start target : Node) (cb : Nat), 1 ≤ cb →
      search_cycle_paths start target edges cb = none) := by
  constructor
  · intro edges start target p h
    exact search_cycle_paths_complete_zero start target edges p h
  · intro edges start target cb h
    exact search_cycle_paths_cbpos start target edges cb h

/-- Witness for the amended C1 at a concrete input: on the 3-cycle graph the
unpruned search from B to A succeeds, and the same search with
`currentBest = 2` returns absent. -/
theorem claim_C1_witness :
    (∃ q, search_cycle_paths "B" "A" [("A", ["B"]), ("B", ["C"]), ("C", ["A"])] 0 = some q) ∧
    search_cycle_paths "B" "A" [("A", ["B"]), ("B", ["C"]), ("C", ["A"])] 2 = none := by
  constructor
  · exact claim_C1.1 [("A", ["B"]), ("B", ["C"]), ("C", ["A"])] "B" "A" 2
      ⟨["C", "A"], by decide, rfl, by decide⟩
  · exact claim_C1.2 [("A", ["B"]), ("B", ["C"]), ("C", ["A"])] "B" "A" 2 (by omega)

/-- Claim C2, as stated, is false on the code: processing the self-loop hop
`(CLAIM01, STATUS01, A, A)` once records `longest_cycle = 0` (the first hop
of a key performs no search), but processing the identical hop twice records
`longest_cycle = 1` and global best 1 — the duplicate hop closes a cycle
through the copy of the edge inserted by the first processing, so the
recorded bests change. -/
theorem claim_C2_cex :
    longestOf selfHop.1 (runHops [selfHop]) = 0 ∧
    longestOf selfHop.1 (runHops [selfHop, selfHop]) = 1 ∧
    (runHops [selfHop]).global_longest_cycle = 0 ∧
    (runHops [selfHop, selfHop]).global_longest_cycle = 1 := by
  refine ⟨?_, ?_, ?_, ?_⟩
  · rw [runHops_self_one]
    decide
  · rw [runHops_self_two]
    decide
  · rw [runHops_self_one]
  · rw [runHops_self_two]

/-- Claim C2 (amended): processing the same hop twice leaves every graph's
adjacency unchanged compared to processing it once (edge insertion is
idempotent), and therefore every subsequent search over those adjacencies
returns the same result; the recorded `bestCycleLength` and global best,
however, may change on the duplicate (see the counterexample). -/
theorem claim_C2 (st : AggState) (hop : GraphID × SystemEdge) (k : GraphID) :
    edgesOf k (processHop (processHop st hop) hop) = edgesOf k (processHop st hop) ∧
    ∀ (q t : Node) (cb : Nat),
      (edgesOf k (processHop (processHop st hop) hop)).map
        (fun E => search_cycle_paths q t E cb) =
      (edgesOf k (processHop st hop)).map
        (fun E => search_cycle_paths q t E cb) := by
  refine ⟨processHop_twice_edges st hop k, ?_⟩
  intro q t cb
  rw [processHop_twice_edges st hop k]

/-- Claim C3, as stated, is false at the aggregator level: the self-loop hop
`(CLAIM01, STATUS01, A, A)` arriving for a fresh key takes the creation
branch of `main`, which inserts the edge without any search, so the recorded
cycle length stays 0 (and no global best is recorded), not 1. -/
theorem claim_C3_cex :
    longestOf selfHop.1 (runHops [selfHop]) = 0 ∧
    (runHops [selfHop]).global_longest_cycle = 0 ∧
    (runHops [selfHop]).global_longest_graph_id = none := by
  rw [runHops_self_one]
  refine ⟨by decide, rfl, rfl⟩

/-- Claim C3 (amended): at the search-engine level a call with
`start == target` and `currentBest = 0` returns depth 0 on the very first pop
(one loop iteration suffices), giving cycle length 0 + 1 = 1; and inserting a
self-loop edge into a graph that already exists in the store with empty
adjacency and `bestCycleLength = 0` records cycle length 1.  Only the first
hop of a fresh key — which `main` inserts without searching — records 0. -/
theorem claim_C3 :
    (∀ (n : Node) (edges : Adj), search_cycle_paths n n edges 0 = some 0) ∧
    (∀ (n : Node) (edges : Adj), searchFuel edges n 0 1 [(n, 0, [])] = some (some 0)) ∧
    (∀ (k : GraphID) (a : Node),
      longestOf k (processHop (AggState.mk [(k, GraphState.mk [] 0)] 0 none)
        (k, SystemEdge.mk a a)) = 1) := by
  refine ⟨search_cycle_paths_self, ?_, ?_⟩
  · intro n edges
    simp [searchFuel]
  · intro k a
    exact (processHop_selfloop_empty k a).1

/-- Claim C4, as stated, is false on the code: only the whole line is
stripped, the four fields keep their surrounding whitespace, so
`' A | B | C | D '` and `'A|B|C|D'` parse to different records. -/
theorem claim_C4_cex :
    get_hop_data " A | B | C | D " ≠ get_hop_data "A|B|C|D" := by
  decide

/-- Claim C4 (amended): `get_hop_data` strips the whole line and then uses
the four pipe-separated fields verbatim — no per-field trimming — building
`GraphID(claim_id, status_code)` from fields three and four and the edge from
fields one and two. -/
theorem claim_C4 (line : String) (a b c d : List Char)
    (h : splitPipe (pyStrip line.data) = [a, b, c, d]) :
    get_hop_data line =
      some (⟨String.mk c, String.mk d⟩, ⟨String.mk a, String.mk b⟩) :=
  get_hop_data_verbatim line a b c d h

/-- Witness for the amended C4: `' A | B | C | D '` keeps the inner spaces in
every field. -/
theorem claim_C4_witness :
    get_hop_data " A | B | C | D " = some (⟨" C ", " D"⟩, ⟨"A ", " B "⟩) :=
  claim_C4 " A | B | C | D " "A ".data " B ".data " C ".data " D".data (by decide)

/-- Claim C5: whenever `search_cycle_paths` returns `p`, the adjacency
contains a simple path of exactly `p` edges from `start` to `target`; in
particular, when no simple path from `start` to `target` exists at all (as in
an acyclic adjacency for an unconnected pair), it returns absent. -/
theorem claim_C5 :
    (∀ (start target : Node) (edges : Adj) (cb p : Nat),
      search_cycle_paths start target edges cb = some p →
      SimplePath edges start target p) ∧
    (∀ (start target : Node) (edges : Adj) (cb : Nat),
      (∀ p, ¬ SimplePath edges start target p) →
      search_cycle_paths start target edges cb = none) := by
  constructor
  · exact search_cycle_paths_sound
  · intro start target edges cb h
    cases hr : search_cycle_paths start target edges cb with
    | none => rfl
    | some p => exact absurd (search_cycle_paths_sound start target edges cb p hr) (h p)

/-- Witness for C5: the successful search on the 3-cycle graph is backed by a
simple path, and on the acyclic chain A → B → C the pair (C, A) has no
connecting path so the search returns absent. -/
theorem claim_C5_witness :
    SimplePath [("A", ["B"]), ("B", ["C"]), ("C", ["A"])] "B" "A" 2 ∧
    search_cycle_paths "C" "A" [("A", ["B"]), ("B", ["C"])] 0 = none := by
  constructor
  · exact claim_C5.1 "B" "A" [("A", ["B"]), ("B", ["C"]), ("C", ["A"])] 0 2
      (searchFuel_eval "B" "A" [("A", ["B"]), ("B", ["C"]), ("C", ["A"])] 0 10 (some 2)
        (by decide))
  · refine claim_C5.2 "C" "A" [("A", ["B"]), ("B", ["C"])] 0 ?_
    intro p hp
    obtain ⟨ns, hchain, hlen, hnd⟩ := hp
    cases ns with
    | nil => simp [chainEnd] at hchain
    | cons x xs =>
      have hadj : adjGet [("A", ["B"]), ("B", ["C"])] "C" = [] := rfl
      simp [chainEnd, hadj] at hchain

/-- Claim C6: with `currentBest = B`, the engine never returns a value `p`
with `p + 1 <= B` — every returned depth passed the pruning check. -/
theorem claim_C6 (start target : Node) (edges : Adj) (B p : Nat)
    (h : search_cycle_paths start target edges B = some p) : ¬ (p + 1 ≤ B) := by
  have := search_cycle_paths_bound start target edges B p h
  omega

/-- Witness for C6 at a concrete input. -/
theorem claim_C6_witness :
    search_cycle_paths "B" "A" [("A", ["B"]), ("B", ["C"]), ("C", ["A"])] 0 = some 2 ∧
    ¬ (2 + 1 ≤ 0) :=
  have h : search_cycle_paths "B" "A" [("A", ["B"]), ("B", ["C"]), ("C", ["A"])] 0 = some 2 :=
    searchFuel_eval "B" "A" [("A", ["B"]), ("B", ["C"]), ("C", ["A"])] 0 10 (some 2) (by decide)
  ⟨h, claim_C6 "B" "A" [("A", ["B"]), ("B", ["C"]), ("C", ["A"])] 0 2 h⟩

/-- Claim C7: each graph's recorded `longest_cycle` is monotonically
non-decreasing — one hop never decreases it, and hence neither does any hop
sequence. -/
theorem claim_C7 :
    (∀ (st : AggState) (hop : GraphID × SystemEdge) (k : GraphID),
      longestOf k st ≤ longestOf k (processHop st hop)) ∧
    (∀ (hops : List (GraphID × SystemEdge)) (st : AggState) (k : GraphID),
      longestOf k st ≤ longestOf k (hops.foldl processHop st)) :=
  ⟨processHop_longest_mono, fun hops => foldl_longest_mono hops⟩

/-- Claim C8: the parser fails exactly when the stripped line does not split
into four pipe-delimited fields, and a non-blank malformed line reached
mid-stream aborts the whole run at that line with no result produced. -/
theorem claim_C8 :
    (∀ line : String,
      get_hop_data line = none ↔ (splitPipe (pyStrip line.data)).length ≠ 4) ∧
    (∀ (pre : List String) (bad : String) (post : List String) (source_file : String),
      (∀ l ∈ pre, pyStrip l.data = [] ∨ get_hop_data l ≠ none) →
      pyStrip bad.data ≠ [] → get_hop_data bad = none →
      runMain (pre ++ bad :: post) source_file = Except.error bad) :=
  ⟨get_hop_data_none_iff,
    fun pre bad post source_file hpre hbad1 hbad2 =>
      runMain_abort pre bad post source_file hpre hbad1 hbad2⟩

/-- Witness for C8: a three-field line after one well-formed line aborts the
run at that line, even with further lines pending. -/
theorem claim_C8_witness :
    runMain ["A|B|C|D", "X|Y|Z", "Epic|Availity|123|197"] "routes.psv" =
      Except.error "X|Y|Z" := by
  refine claim_C8.2 ["A|B|C|D"] "X|Y|Z" ["Epic|Availity|123|197"] "routes.psv"
    ?_ (by decide) (by decide)
  intro l hl
  simp only [List.mem_cons, List.not_mem_nil, or_false] at hl
  subst hl
  right
  decide

/-- Claim C9: the while-loop of `search_cycle_paths` always finishes — for
every input some finite fuel makes the fuel-indexed copy of the loop return,
and the returned value is exactly `search_cycle_paths` of the inputs (a total,
deterministic function). -/
theorem claim_C9 (start target : Node) (edges : Adj) (current_best : Nat) :
    ∃ n r, searchFuel edges target current_best n [(start, 0, [])] = some r ∧
      search_cycle_paths start target edges current_best = r :=
  search_terminates start target edges current_best

/-- Claim C10: after any run of `main`'s loop, `global_longest_cycle` equals
the maximum of `longest_cycle` over all stored graphs (0 when there are
none), `global_longest_graph_id` is `None` exactly when that maximum is 0,
and when set it names a graph whose `longest_cycle` equals the global best. -/
theorem claim_C10 (hops : List (GraphID × SystemEdge)) :
    (runHops hops).global_longest_cycle = maxLongest (runHops hops).graphs ∧
    ((runHops hops).global_longest_graph_id = none ↔
      (runHops hops).global_longest_cycle = 0) ∧
    (∀ k, (runHops hops).global_longest_graph_id = some k →
      ∃ g, lookupGraph k (runHops hops).graphs = some g ∧
        g.longest_cycle = (runHops hops).global_longest_cycle) := by
  have h := globalInv_run hops
  exact ⟨globalInv_maxLongest _ h, h.2.1, h.2.2⟩

/-- Witness for C10 on the two-self-loop run, whose global id is set:
the recorded key points at a graph attaining the global best. -/
theorem claim_C10_witness :
    ∃ g, lookupGraph selfHop.1 (runHops [selfHop, selfHop]).graphs = some g ∧
      g.longest_cycle = (runHops [selfHop, selfHop]).global_longest_cycle := by
  refine (claim_C10 [selfHop, selfHop]).2.2 selfHop.1 ?_
  rw [runHops_self_two]
